import Mathlib

/-!
Shallow embedding of the boids simulator (`src/main.cpp`) over the reals.

The C++ program stores positions and headings as `float` and uses the libm
functions `fmod`, `atan2`, `sqrtf`, `cos`, `sin`; the embedding idealises
those as the corresponding exact operations on `ℝ` (`atan2` as `Complex.arg`,
which has the same range `(-π, π]` and the same value `0` at the origin).
The `std::list<Boid>` that `System::update` mutates in place is modelled as a
`List Boid`, with the in-place traversal made explicit (`inPlaceGo`).
-/

namespace Boids

open scoped Classical

noncomputable section

/-- Truncation toward zero, as C's `fmod` rounds its quotient. -/
def rtrunc (x : ℝ) : ℤ := if x < 0 then ⌈x⌉ else ⌊x⌋

/-- C's `fmod x y = x - y * trunc (x / y)` (exact remainder semantics). -/
def fmod (x y : ℝ) : ℝ := x - y * rtrunc (x / y)

/-- `Helpers::normalize_angle`: `fmod` by 360, then add 360 if negative. -/
def normalize_angle (theta : ℝ) : ℝ :=
  let t := fmod theta 360
  if t < 0 then t + 360 else t

/-- `Helpers::opposite_angle`. -/
def opposite_angle (theta : ℝ) : ℝ :=
  normalize_angle (normalize_angle theta + 180)

/-- The wrap across the ±360 boundary performed inside
`Helpers::steering_nudge` on `n_to - n_from`. -/
def wrapDiff (d : ℝ) : ℝ :=
  if d > 180 then d - 360 else if d < -180 then d + 360 else d

/-- `Helpers::steering_nudge`: normalize both angles, take the wrapped
difference, clamp its magnitude to `force` keeping the sign, add to the
normalized source and normalize the result. -/
def steering_nudge (fro tgt force : ℝ) : ℝ :=
  let n_from := normalize_angle fro
  let n_to := normalize_angle tgt
  let difference := wrapDiff (n_to - n_from)
  let adjustment := if |difference| < force then |difference| else force
  let newAngle := n_from + (if difference > 0 then adjustment else -adjustment)
  normalize_angle newAngle

/-- `Helpers::distance` (Euclidean, via `sqrtf(pow(abs dx,2) + pow(abs dy,2))`). -/
def distance (a b : ℝ × ℝ) : ℝ :=
  Real.sqrt (|b.1 - a.1| ^ 2 + |b.2 - a.2| ^ 2)

/-- `Helpers::angle_to`: `atan2(dy, dx)` converted to degrees.  `atan2` is
modelled by `Complex.arg`, which also has range `(-π, π]` and value `0` at
the origin. -/
def angle_to (a b : ℝ × ℝ) : ℝ :=
  Complex.arg (Complex.mk (b.1 - a.1) (b.2 - a.2)) * 180 / Real.pi

/-- `Helpers::degrees_to_radians` (the source multiplies by the literal
`3.141592653f / 180`). -/
def degrees_to_radians (degrees : ℝ) : ℝ := degrees * (3.141592653 / 180)

/-- Shorter-arc angular distance between two headings: the smaller of the two
arcs joining them (spec vocabulary; used to state the `steering_nudge`
properties). -/
def angDist (a b : ℝ) : ℝ :=
  min (normalize_angle (b - a)) (normalize_angle (a - b))

/-! ### Facts about `normalize_angle` -/

theorem normalize_angle_def (theta : ℝ) :
    normalize_angle theta =
      if fmod theta 360 < 0 then fmod theta 360 + 360 else fmod theta 360 := rfl

theorem normalize_angle_eq_floorMod (theta : ℝ) :
    normalize_angle theta = theta - 360 * ⌊theta / 360⌋ := by
  rw [normalize_angle_def]
  unfold fmod rtrunc
  set q := theta / 360 with hqdef
  have htheta : theta = 360 * q := by rw [hqdef]; field_simp
  have hfl : (⌊q⌋ : ℝ) ≤ q := Int.floor_le q
  have hfu : q < ⌊q⌋ + 1 := Int.lt_floor_add_one q
  rcases lt_or_le q 0 with hq | hq
  · rw [if_pos hq]
    rcases eq_or_lt_of_le hfl with heq | hlt
    · have hceil : ⌈q⌉ = ⌊q⌋ := le_antisymm (Int.ceil_le.mpr heq.ge) (Int.floor_le_ceil q)
      rw [hceil]
      have h0 : theta - 360 * (⌊q⌋ : ℝ) = 0 := by rw [htheta]; linarith [heq]
      rw [h0]
      simp
    · have hceil : ⌈q⌉ = ⌊q⌋ + 1 := by
        have h1 : ⌈q⌉ ≤ ⌊q⌋ + 1 := Int.ceil_le_floor_add_one q
        have h2 : ⌊q⌋ < ⌈q⌉ := Int.lt_ceil.mpr hlt
        omega
      rw [hceil]
      have hneg : theta - 360 * ((⌊q⌋ + 1 : ℤ) : ℝ) < 0 := by
        rw [htheta]; push_cast; nlinarith
      rw [if_pos hneg]
      push_cast
      ring
  · rw [if_neg (not_lt.mpr hq)]
    have hnn : ¬ theta - 360 * (⌊q⌋ : ℝ) < 0 := by
      rw [htheta]; nlinarith
    rw [if_neg hnn]

theorem normalize_angle_nonneg (theta : ℝ) : 0 ≤ normalize_angle theta := by
  rw [normalize_angle_eq_floorMod]
  have hfl : (⌊theta / 360⌋ : ℝ) ≤ theta / 360 := Int.floor_le _
  nlinarith

theorem normalize_angle_lt (theta : ℝ) : normalize_angle theta < 360 := by
  rw [normalize_angle_eq_floorMod]
  have hfu : theta / 360 < ⌊theta / 360⌋ + 1 := Int.lt_floor_add_one _
  nlinarith

theorem normalize_angle_eq_self {theta : ℝ} (h0 : 0 ≤ theta) (h1 : theta < 360) :
    normalize_angle theta = theta := by
  rw [normalize_angle_eq_floorMod]
  have : ⌊theta / 360⌋ = 0 := by
    rw [Int.floor_eq_zero_iff]
    constructor
    · positivity
    · rw [div_lt_one (by norm_num : (0:ℝ) < 360)] at *
      linarith
  rw [this]
  push_cast
  ring

theorem normalize_angle_add_int (theta : ℝ) (k : ℤ) :
    normalize_angle (theta + 360 * k) = normalize_angle theta := by
  rw [normalize_angle_eq_floorMod, normalize_angle_eq_floorMod]
  have : (theta + 360 * k) / 360 = theta / 360 + k := by field_simp; ring
  rw [this, Int.floor_add_int]
  push_cast
  ring

theorem normalize_angle_sub_self (theta : ℝ) :
    ∃ k : ℤ, normalize_angle theta - theta = 360 * k := by
  rw [normalize_angle_eq_floorMod]
  exact ⟨-⌊theta / 360⌋, by push_cast; ring⟩

theorem normalize_angle_idem (theta : ℝ) :
    normalize_angle (normalize_angle theta) = normalize_angle theta :=
  normalize_angle_eq_self (normalize_angle_nonneg theta) (normalize_angle_lt theta)

theorem normalize_angle_congr {a b : ℝ} (k : ℤ) (h : a - b = 360 * k) :
    normalize_angle a = normalize_angle b := by
  have : a = b + 360 * k := by linarith
  rw [this, normalize_angle_add_int]

/-! ### Facts about `wrapDiff`, `angDist` and `steering_nudge` -/

theorem wrapDiff_bounds {x : ℝ} (h1 : -360 < x) (h2 : x < 360) :
    -180 ≤ wrapDiff x ∧ wrapDiff x ≤ 180 := by
  unfold wrapDiff
  split_ifs <;> constructor <;> linarith

theorem wrapDiff_sub_int_mul (x : ℝ) : ∃ k : ℤ, wrapDiff x - x = 360 * k := by
  unfold wrapDiff
  split_ifs
  · exact ⟨-1, by push_cast; ring⟩
  · exact ⟨1, by push_cast; ring⟩
  · exact ⟨0, by push_cast; ring⟩

theorem steering_nudge_def (fro tgt m : ℝ) :
    steering_nudge fro tgt m =
      normalize_angle (normalize_angle fro +
        (if 0 < wrapDiff (normalize_angle tgt - normalize_angle fro)
          then (if |wrapDiff (normalize_angle tgt - normalize_angle fro)| < m
                then |wrapDiff (normalize_angle tgt - normalize_angle fro)| else m)
          else -(if |wrapDiff (normalize_angle tgt - normalize_angle fro)| < m
                then |wrapDiff (normalize_angle tgt - normalize_angle fro)| else m))) := rfl

theorem steering_nudge_eq_min (fro tgt m : ℝ) :
    steering_nudge fro tgt m =
      normalize_angle (normalize_angle fro +
        (if 0 < wrapDiff (normalize_angle tgt - normalize_angle fro)
          then min |wrapDiff (normalize_angle tgt - normalize_angle fro)| m
          else -min |wrapDiff (normalize_angle tgt - normalize_angle fro)| m)) := by
  rw [steering_nudge_def]
  have hadj : (if |wrapDiff (normalize_angle tgt - normalize_angle fro)| < m
        then |wrapDiff (normalize_angle tgt - normalize_angle fro)| else m) =
      min |wrapDiff (normalize_angle tgt - normalize_angle fro)| m := by
    rcases lt_or_le |wrapDiff (normalize_angle tgt - normalize_angle fro)| m with h | h
    · rw [if_pos h, min_eq_left h.le]
    · rw [if_neg (not_lt.mpr h), min_eq_right h]
  rw [hadj]

theorem steering_nudge_mem_range (fro tgt m : ℝ) :
    0 ≤ steering_nudge fro tgt m ∧ steering_nudge fro tgt m < 360 := by
  rw [steering_nudge_def]
  exact ⟨normalize_angle_nonneg _, normalize_angle_lt _⟩

theorem angDist_eq_abs_wrapDiff {a b : ℝ} (ha0 : 0 ≤ a) (ha1 : a < 360)
    (hb0 : 0 ≤ b) (hb1 : b < 360) : angDist a b = |wrapDiff (b - a)| := by
  unfold angDist
  rcases le_or_lt 0 (b - a) with h0 | h0
  · have hnb : normalize_angle (b - a) = b - a :=
      normalize_angle_eq_self h0 (by linarith)
    rcases eq_or_lt_of_le h0 with heq | hpos
    · have hab : a - b = 0 := by linarith
      have hba : b - a = 0 := by linarith
      rw [hnb, hab, hba, normalize_angle_eq_self le_rfl (by norm_num)]
      unfold wrapDiff
      norm_num
    · have hna : normalize_angle (a - b) = a - b + 360 := by
        have h := normalize_angle_add_int (a - b) 1
        push_cast at h
        rw [← h, normalize_angle_eq_self (by linarith) (by linarith)]
        ring
      rw [hnb, hna]
      unfold wrapDiff
      split_ifs with h1 h2
      · rw [abs_of_nonpos (by linarith), min_eq_right (by linarith)]
        ring
      · linarith
      · rw [abs_of_nonneg h0, min_eq_left (by linarith)]
  · have hna : normalize_angle (a - b) = a - b :=
      normalize_angle_eq_self (by linarith) (by linarith)
    have hnb : normalize_angle (b - a) = b - a + 360 := by
      have h := normalize_angle_add_int (b - a) 1
      push_cast at h
      rw [← h, normalize_angle_eq_self (by linarith) (by linarith)]
      ring
    rw [hnb, hna]
    unfold wrapDiff
    split_ifs with h1 h2
    · linarith
    · rw [abs_of_nonneg (by linarith), min_eq_left (by linarith)]
    · rw [abs_of_nonpos (by linarith), min_eq_right (by linarith)]
      ring

theorem angDist_norm_norm (a b : ℝ) :
    angDist (normalize_angle a) (normalize_angle b) = angDist a b := by
  unfold angDist
  obtain ⟨ka, hka⟩ := normalize_angle_sub_self a
  obtain ⟨kb, hkb⟩ := normalize_angle_sub_self b
  rw [normalize_angle_congr (a := normalize_angle b - normalize_angle a) (b := b - a)
      (kb - ka) (by push_cast; linarith),
    normalize_angle_congr (a := normalize_angle a - normalize_angle b) (b := a - b)
      (ka - kb) (by push_cast; linarith)]

theorem abs_eq_of_sub_int_mul {x y : ℝ} {k : ℤ} (h : x - y = 360 * k)
    (hx : |x| ≤ 180) (hy : |y| ≤ 180) : |x| = |y| := by
  have hx' := abs_le.mp hx
  have hy' := abs_le.mp hy
  have hk : -1 ≤ k ∧ k ≤ 1 := by
    constructor <;> by_contra hc <;> push_neg at hc
    · have hk2 : (k : ℝ) ≤ -2 := by exact_mod_cast (by omega : k ≤ -2)
      nlinarith
    · have hk2 : (2 : ℝ) ≤ (k : ℝ) := by exact_mod_cast (by omega : 2 ≤ k)
      nlinarith
  rcases (by omega : k = -1 ∨ k = 0 ∨ k = 1) with hk1 | hk1 | hk1
  · subst hk1
    push_cast at h
    have hx180 : x = -180 := by linarith
    have hy180 : y = 180 := by linarith
    rw [hx180, hy180]
    norm_num
  · subst hk1
    push_cast at h
    have : x = y := by linarith
    rw [this]
  · subst hk1
    push_cast at h
    have hx180 : x = 180 := by linarith
    have hy180 : y = -180 := by linarith
    rw [hx180, hy180]
    norm_num

/-! ### Claims C1, C2, C3: the angle utilities -/

/-- Claim C1: for every pair of angles and every non-negative `max_step`,
`steering_nudge` moves the heading by at most `max_step` along the shorter
arc away from `normalize(from)`, ends up no farther from `normalize(to)`
along the shorter arc than `normalize(from)` was, and the step it takes is
the signed shortest angular difference clamped to `max_step` (sign
preserved). -/
theorem steering_nudge_bounded_step_toward_target (fro tgt m : ℝ) (hm : 0 ≤ m) :
    angDist (normalize_angle fro) (steering_nudge fro tgt m) ≤ m ∧
    angDist (steering_nudge fro tgt m) (normalize_angle tgt) ≤
      angDist (normalize_angle fro) (normalize_angle tgt) ∧
    steering_nudge fro tgt m =
      normalize_angle (normalize_angle fro +
        Real.sign (wrapDiff (normalize_angle tgt - normalize_angle fro)) *
          min |wrapDiff (normalize_angle tgt - normalize_angle fro)| m) := by
  have hmain := steering_nudge_eq_min fro tgt m
  have hnf0 : 0 ≤ normalize_angle fro := normalize_angle_nonneg fro
  have hnf1 : normalize_angle fro < 360 := normalize_angle_lt fro
  have hnt0 : 0 ≤ normalize_angle tgt := normalize_angle_nonneg tgt
  have hnt1 : normalize_angle tgt < 360 := normalize_angle_lt tgt
  set nf := normalize_angle fro with hnf
  set nt := normalize_angle tgt with hnt
  set d := wrapDiff (nt - nf) with hd
  have hdb : -180 ≤ d ∧ d ≤ 180 := by
    rw [hd]; exact wrapDiff_bounds (by linarith) (by linarith)
  have hDabs : |d| ≤ 180 := abs_le.mpr hdb
  obtain ⟨k3, hk3⟩ := wrapDiff_sub_int_mul (nt - nf)
  rw [← hd] at hk3
  set s := if 0 < d then min |d| m else -min |d| m with hs
  have hmin0 : 0 ≤ min |d| m := le_min (abs_nonneg d) hm
  have hminD : min |d| m ≤ |d| := min_le_left _ _
  have hminm : min |d| m ≤ m := min_le_right _ _
  obtain ⟨k2, hk2⟩ := normalize_angle_sub_self (nf + s)
  have hres0 : 0 ≤ normalize_angle (nf + s) := normalize_angle_nonneg _
  have hres1 : normalize_angle (nf + s) < 360 := normalize_angle_lt _
  refine ⟨?_, ?_, ?_⟩
  · rw [hmain]
    unfold angDist
    by_cases hc : 0 < d
    · have hsv : s = min |d| m := by rw [hs, if_pos hc]
      have h1 : normalize_angle (normalize_angle (nf + s) - nf) = min |d| m := by
        rw [normalize_angle_congr (a := normalize_angle (nf + s) - nf) (b := s) k2
            (by linarith), hsv]
        exact normalize_angle_eq_self hmin0 (by linarith)
      exact le_trans (min_le_left _ _) (le_trans h1.le hminm)
    · have hsv : -s = min |d| m := by rw [hs, if_neg hc]; ring
      have h2 : normalize_angle (nf - normalize_angle (nf + s)) = min |d| m := by
        rw [normalize_angle_congr (a := nf - normalize_angle (nf + s)) (b := -s) (-k2)
            (by push_cast; linarith), hsv]
        exact normalize_angle_eq_self hmin0 (by linarith)
      exact le_trans (min_le_right _ _) (le_trans h2.le hminm)
  · rw [hmain]
    rw [angDist_eq_abs_wrapDiff (normalize_angle_nonneg _) (normalize_angle_lt _) hnt0 hnt1,
      angDist_eq_abs_wrapDiff hnf0 hnf1 hnt0 hnt1, ← hd]
    obtain ⟨k1, hk1⟩ := wrapDiff_sub_int_mul (nt - normalize_angle (nf + s))
    have hwb : -180 ≤ wrapDiff (nt - normalize_angle (nf + s)) ∧
        wrapDiff (nt - normalize_angle (nf + s)) ≤ 180 :=
      wrapDiff_bounds (by linarith) (by linarith)
    have key : |d - s| ≤ 180 ∧ |d - s| ≤ |d| := by
      by_cases hc : 0 < d
      · have habsd : |d| = d := abs_of_pos hc
        have hsv : s = min |d| m := by rw [hs, if_pos hc]
        have h0s : 0 ≤ s := hsv ▸ hmin0
        have hsd : s ≤ d := by
          rw [hsv]
          exact le_trans hminD (le_of_eq habsd)
        rw [abs_of_nonneg (by linarith : 0 ≤ d - s), habsd]
        constructor <;> linarith [hdb.2]
      · have hd0 : d ≤ 0 := not_lt.mp hc
        have habsd : |d| = -d := abs_of_nonpos hd0
        have hsv : s = -min |d| m := by rw [hs, if_neg hc]
        have h0s : s ≤ 0 := by rw [hsv]; linarith
        have hsd : -s ≤ -d := by
          rw [hsv, neg_neg]
          exact le_trans hminD (le_of_eq habsd)
        rw [abs_of_nonpos (by linarith : d - s ≤ 0), habsd]
        constructor <;> linarith [hdb.1]
    have hcong : wrapDiff (nt - normalize_angle (nf + s)) - (d - s) =
        360 * ((k1 - k2 - k3 : ℤ) : ℝ) := by push_cast; linarith
    have habs := abs_eq_of_sub_int_mul hcong (abs_le.mpr hwb) key.1
    rw [habs]
    exact key.2
  · rw [hmain]
    have hstep : s = Real.sign d * min |d| m := by
      rcases lt_trichotomy d 0 with h | h | h
      · rw [hs, if_neg (by linarith), Real.sign_of_neg h]; ring
      · have hm0 : min |d| m = 0 := by rw [h]; simp [min_eq_left hm]
        rw [hs, hm0, h, Real.sign_zero]
        norm_num
      · rw [hs, if_pos h, Real.sign_of_pos h]; ring
    rw [hstep]

/-- Witness for Claim C1 at `from = 0`, `to = 90`, `max_step = 30`. -/
theorem steering_nudge_bounded_step_toward_target_witness :
    angDist (normalize_angle 0) (steering_nudge 0 90 30) ≤ 30 :=
  (steering_nudge_bounded_step_toward_target 0 90 30 (by norm_num)).1

/-- Claim C2: when the steering budget `max_step` is at least the shorter-arc
angular distance between the two angles, `steering_nudge` lands exactly on
`normalize(to)`. -/
theorem steering_nudge_reaches_target (fro tgt m : ℝ)
    (h : angDist fro tgt ≤ m) : steering_nudge fro tgt m = normalize_angle tgt := by
  have hmain := steering_nudge_eq_min fro tgt m
  have hnf0 : 0 ≤ normalize_angle fro := normalize_angle_nonneg fro
  have hnf1 : normalize_angle fro < 360 := normalize_angle_lt fro
  have hnt0 : 0 ≤ normalize_angle tgt := normalize_angle_nonneg tgt
  have hnt1 : normalize_angle tgt < 360 := normalize_angle_lt tgt
  have hADd : angDist (normalize_angle fro) (normalize_angle tgt) =
      |wrapDiff (normalize_angle tgt - normalize_angle fro)| :=
    angDist_eq_abs_wrapDiff hnf0 hnf1 hnt0 hnt1
  have hAD : angDist (normalize_angle fro) (normalize_angle tgt) = angDist fro tgt :=
    angDist_norm_norm fro tgt
  set nf := normalize_angle fro with hnf
  set nt := normalize_angle tgt with hnt
  set d := wrapDiff (nt - nf) with hd
  have hdm : |d| ≤ m := by rw [← hADd, hAD] at *; exact le_trans (le_of_eq rfl) h
  have hmin : min |d| m = |d| := min_eq_left hdm
  obtain ⟨k3, hk3⟩ := wrapDiff_sub_int_mul (nt - nf)
  rw [← hd] at hk3
  rw [hmain]
  by_cases hc : 0 < d
  · rw [if_pos hc, hmin, abs_of_pos hc]
    rw [normalize_angle_congr (a := nf + d) (b := nt) k3 (by linarith)]
    exact normalize_angle_eq_self hnt0 hnt1
  · rw [if_neg hc, hmin, abs_of_nonpos (not_lt.mp hc)]
    have harg : nf + - -d = nf + d := by ring
    rw [harg, normalize_angle_congr (a := nf + d) (b := nt) k3 (by linarith)]
    exact normalize_angle_eq_self hnt0 hnt1

/-- Witness for Claim C2 at `from = 10`, `to = 40`, `max_step = 50`. -/
theorem steering_nudge_reaches_target_witness :
    steering_nudge 10 40 50 = normalize_angle 40 := by
  refine steering_nudge_reaches_target 10 40 50 ?_
  unfold angDist
  norm_num
  have h1 : normalize_angle (30 : ℝ) = 30 :=
    normalize_angle_eq_self (by norm_num) (by norm_num)
  have h2 : normalize_angle (-30 : ℝ) = 330 := by
    have h := normalize_angle_add_int (-30 : ℝ) 1
    norm_num at h
    rw [← h]
    exact normalize_angle_eq_self (by norm_num) (by norm_num)
  rw [h1, h2]
  left
  norm_num

/-- Claim C3: `normalize_angle` maps every real input (negative or beyond a
full turn included) into `[0, 360)`, and equals the floored modulo of the
input by 360. -/
theorem normalize_angle_range_and_floored_mod (theta : ℝ) :
    (0 ≤ normalize_angle theta ∧ normalize_angle theta < 360) ∧
    normalize_angle theta = theta - 360 * ⌊theta / 360⌋ :=
  ⟨⟨normalize_angle_nonneg theta, normalize_angle_lt theta⟩,
    normalize_angle_eq_floorMod theta⟩

/-! ### The flock: `Boid` and `System::update` -/

/-- `struct Boid`: position, heading (`rot`) and the unique id the global
counter assigns at construction.  `operator==` compares ids. -/
structure Boid where
  pos : ℝ × ℝ
  rot : ℝ
  id : ℕ

/-- The inner loop of the separation pass: for each `y` in the flock, skip
`x == y` (id equality), and collect `angle_to(x.pos, y.pos)` when `y` is
strictly within the separation ring of radius 20. -/
def collectAngles (x : Boid) : List Boid → List ℝ
  | [] => []
  | y :: rest =>
    if y.id = x.id then collectAngles x rest
    else if distance x.pos y.pos < 20 then
      angle_to x.pos y.pos :: collectAngles x rest
    else collectAngles x rest

/-- One agent's separation update given the current list `all`: if no
neighbor was collected the agent is untouched, otherwise steer toward the
opposite of the mean collected bearing with budget `90 * dt`
(`separation_force * delta_time`). -/
def sepStep (dt : ℝ) (all : List Boid) (x : Boid) : Boid :=
  let boid_angles := collectAngles x all
  if boid_angles.isEmpty then x
  else
    let average_angle := boid_angles.foldl (· + ·) 0 / (boid_angles.length : ℝ)
    { x with rot := steering_nudge x.rot (opposite_angle average_angle) (90 * dt) }

/-- `centroid` (`center_x`, `center_y` in `System::update`): arithmetic mean
of the positions, computed before the cohesion loop runs. -/
def centroid (l : List Boid) : ℝ × ℝ :=
  ((l.map (fun b => b.pos.1)).foldl (· + ·) 0 / (l.length : ℝ),
   (l.map (fun b => b.pos.2)).foldl (· + ·) 0 / (l.length : ℝ))

/-- One agent's cohesion update: steer toward the bearing to the centroid
`c` with budget `60 * dt` (`cohesion_force * delta_time`). -/
def cohStep (dt : ℝ) (c : ℝ × ℝ) (x : Boid) : Boid :=
  { x with rot := steering_nudge x.rot (angle_to x.pos c) (60 * dt) }

/-- `average_rotation` in `System::update`: arithmetic mean of the headings,
computed before the alignment loop runs. -/
def avgRot (l : List Boid) : ℝ :=
  (l.map (fun b => b.rot)).foldl (· + ·) 0 / (l.length : ℝ)

/-- One agent's alignment update: steer toward the mean heading `avg` with
budget `50 * dt` (`alignment_force * delta_time`). -/
def alignStep (dt : ℝ) (avg : ℝ) (x : Boid) : Boid :=
  { x with rot := steering_nudge x.rot avg (50 * dt) }

/-- One agent's movement update: advance the position by
`(cos(heading_rad) * 10 * dt, sin(heading_rad) * 10 * dt)`
(`movement_speed = 10`). -/
def moveStep (dt : ℝ) (x : Boid) : Boid :=
  { x with pos := x.pos + (Real.cos (degrees_to_radians x.rot) * 10 * dt,
                           Real.sin (degrees_to_radians x.rot) * 10 * dt) }

/-- In-place traversal of the boid list: each agent is rewritten in turn,
and the per-agent function sees the current list — already-updated agents in
front, not-yet-updated agents behind — exactly as the C++ range-`for` over
`std::list<Boid>` does. -/
def inPlaceGo (f : List Boid → Boid → Boid) : List Boid → List Boid → List Boid
  | done, [] => done
  | done, x :: rest => inPlaceGo f (done ++ [f (done ++ x :: rest) x]) rest

/-- Run an in-place traversal over a whole list. -/
def inPlaceUpdate (f : List Boid → Boid → Boid) (l : List Boid) : List Boid :=
  inPlaceGo f [] l

/-- The separation pass of `System::update`, in place. -/
def sepPass (dt : ℝ) (l : List Boid) : List Boid := inPlaceUpdate (sepStep dt) l

/-- The cohesion pass of `System::update`: the centroid is computed before
the loop, then each agent is rewritten in place. -/
def cohPass (dt : ℝ) (l : List Boid) : List Boid :=
  inPlaceUpdate (fun _ x => cohStep dt (centroid l) x) l

/-- The alignment pass of `System::update`: the mean heading is computed
before the loop, then each agent is rewritten in place. -/
def alignPass (dt : ℝ) (l : List Boid) : List Boid :=
  inPlaceUpdate (fun _ x => alignStep dt (avgRot l) x) l

/-- The movement pass of `System::update`, in place. -/
def movePass (dt : ℝ) (l : List Boid) : List Boid :=
  inPlaceUpdate (fun _ x => moveStep dt x) l

/-- `System::update`: separation, cohesion, alignment, movement, in order. -/
def update (dt : ℝ) (l : List Boid) : List Boid :=
  movePass dt (alignPass dt (cohPass dt (sepPass dt l)))

/-- `System::System(n)`: `n` boids at `(20 * i, 200)` with heading 0 and
consecutive ids. -/
def mkSystem (n : ℕ) : List Boid :=
  (List.range n).map fun (i : ℕ) => { pos := (20 * (i : ℝ), 200), rot := 0, id := i }

/-- Modelled from the spec: the reference separation pass computes every
agent's result from the snapshot taken at the start of the pass. -/
def sepPassRef (dt : ℝ) (l : List Boid) : List Boid := l.map (sepStep dt l)

/-- Modelled from the spec: the reference cohesion pass computes the
centroid from the snapshot, then applies all nudges. -/
def cohPassRef (dt : ℝ) (l : List Boid) : List Boid := l.map (cohStep dt (centroid l))

/-- Modelled from the spec: the reference alignment pass computes the mean
heading from the snapshot, then applies all nudges. -/
def alignPassRef (dt : ℝ) (l : List Boid) : List Boid := l.map (alignStep dt (avgRot l))

/-- Modelled from the spec: the reference movement pass. -/
def movePassRef (dt : ℝ) (l : List Boid) : List Boid := l.map (moveStep dt)

/-- Modelled from the spec: the reference update — four passes in order,
each one computing its aggregate values from a snapshot of the state at the
start of the pass and only then applying the nudges. -/
def updateRef (dt : ℝ) (l : List Boid) : List Boid :=
  movePassRef dt (alignPassRef dt (cohPassRef dt (sepPassRef dt l)))

/-- The data a pass step may read from agents other than its own: position
and id (headings of others are never read inside a pass). -/
def posId (b : Boid) : (ℝ × ℝ) × ℕ := (b.pos, b.id)

theorem inPlaceGo_const (g : Boid → Boid) :
    ∀ todo done : List Boid,
      inPlaceGo (fun _ x => g x) done todo = done ++ todo.map g := by
  intro todo
  induction todo with
  | nil => intro done; simp [inPlaceGo]
  | cons x rest ih =>
    intro done
    rw [show inPlaceGo (fun _ x => g x) done (x :: rest) =
        inPlaceGo (fun _ x => g x) (done ++ [g x]) rest from rfl, ih]
    simp

theorem inPlaceUpdate_const (g : Boid → Boid) (l : List Boid) :
    inPlaceUpdate (fun _ x => g x) l = l.map g := by
  unfold inPlaceUpdate
  rw [inPlaceGo_const]
  simp

theorem inPlaceGo_snapshot (f : List Boid → Boid → Boid)
    (hdep : ∀ l₁ l₂ x, l₁.map posId = l₂.map posId → f l₁ x = f l₂ x)
    (hpres : ∀ l x, posId (f l x) = posId x) :
    ∀ todo done l0 : List Boid,
      (done ++ todo).map posId = l0.map posId →
      inPlaceGo f done todo = done ++ todo.map (f l0) := by
  intro todo
  induction todo with
  | nil => intro done l0 h; simp [inPlaceGo]
  | cons x rest ih =>
    intro done l0 h
    rw [show inPlaceGo f done (x :: rest) =
        inPlaceGo f (done ++ [f (done ++ x :: rest) x]) rest from rfl]
    have hfx : f (done ++ x :: rest) x = f l0 x := hdep _ _ x h
    have hkey : posId (f (done ++ x :: rest) x) = posId x := hpres _ _
    have h' : ((done ++ [f (done ++ x :: rest) x]) ++ rest).map posId = l0.map posId := by
      simp only [List.map_append, List.map_cons, List.map_nil] at h ⊢
      rw [hkey]
      simpa using h
    rw [ih (done ++ [f (done ++ x :: rest) x]) l0 h', hfx]
    simp

theorem sepStep_def (dt : ℝ) (all : List Boid) (x : Boid) :
    sepStep dt all x =
      if (collectAngles x all).isEmpty then x
      else { x with
        rot := steering_nudge x.rot
            (opposite_angle
              ((collectAngles x all).foldl (· + ·) 0 / ((collectAngles x all).length : ℝ)))
            (90 * dt) } := rfl

theorem collectAngles_congr (x : Boid) :
    ∀ l₁ l₂ : List Boid, l₁.map posId = l₂.map posId →
      collectAngles x l₁ = collectAngles x l₂ := by
  intro l₁
  induction l₁ with
  | nil =>
    intro l₂ h
    cases l₂ with
    | nil => rfl
    | cons z rest₂ => simp at h
  | cons y rest ih =>
    intro l₂ h
    cases l₂ with
    | nil => simp at h
    | cons z rest₂ =>
      simp only [List.map_cons, List.cons.injEq] at h
      obtain ⟨hyz, hrest⟩ := h
      have hpos : y.pos = z.pos := congrArg Prod.fst hyz
      have hid : y.id = z.id := congrArg Prod.snd hyz
      show collectAngles x (y :: rest) = collectAngles x (z :: rest₂)
      rw [collectAngles, collectAngles, hpos, hid, ih rest₂ hrest]

theorem sepStep_congr (dt : ℝ) (l₁ l₂ : List Boid) (x : Boid)
    (h : l₁.map posId = l₂.map posId) : sepStep dt l₁ x = sepStep dt l₂ x := by
  unfold sepStep
  rw [collectAngles_congr x l₁ l₂ h]

theorem sepStep_posId (dt : ℝ) (l : List Boid) (x : Boid) :
    posId (sepStep dt l x) = posId x := by
  rw [sepStep_def]
  split <;> rfl

theorem sepPass_eq_map (dt : ℝ) (l : List Boid) :
    sepPass dt l = l.map (sepStep dt l) := by
  unfold sepPass inPlaceUpdate
  rw [inPlaceGo_snapshot (sepStep dt) (sepStep_congr dt) (sepStep_posId dt) l [] l (by simp)]
  simp

theorem cohPass_eq_map (dt : ℝ) (l : List Boid) :
    cohPass dt l = l.map (cohStep dt (centroid l)) :=
  inPlaceUpdate_const (cohStep dt (centroid l)) l

theorem alignPass_eq_map (dt : ℝ) (l : List Boid) :
    alignPass dt l = l.map (alignStep dt (avgRot l)) :=
  inPlaceUpdate_const (alignStep dt (avgRot l)) l

theorem movePass_eq_map (dt : ℝ) (l : List Boid) :
    movePass dt l = l.map (moveStep dt) :=
  inPlaceUpdate_const (moveStep dt) l

/-! ### Claim C5: the in-place update refines the snapshot reference -/

/-- Claim C5: for every flock (the non-empty ones of the claim included) and
every `delta_time`, the in-place `update` coincides with the reference
update whose four passes each compute their aggregate values (per-agent mean
neighbor bearing, global centroid, global mean heading) from a snapshot of
the state at the start of the pass and only then apply the nudges; within a
pass no agent sees another agent's already-updated heading. -/
theorem update_eq_updateRef (dt : ℝ) (l : List Boid) :
    update dt l = updateRef dt l := by
  unfold update updateRef
  rw [sepPass_eq_map]
  rw [show sepPassRef dt l = l.map (sepStep dt l) from rfl]
  rw [cohPass_eq_map]
  rw [show ∀ m, cohPassRef dt m = m.map (cohStep dt (centroid m)) from fun _ => rfl]
  rw [alignPass_eq_map]
  rw [show ∀ m, alignPassRef dt m = m.map (alignStep dt (avgRot m)) from fun _ => rfl]
  rw [movePass_eq_map]
  rfl

/-! ### Claim C4: headings stay in [0, 360) -/

theorem rot_of_mem_cohPass (dt : ℝ) (l : List Boid) (b : Boid)
    (hb : b ∈ cohPass dt l) : 0 ≤ b.rot ∧ b.rot < 360 := by
  rw [cohPass_eq_map] at hb
  simp only [List.mem_map] at hb
  obtain ⟨a, _, rfl⟩ := hb
  exact steering_nudge_mem_range _ _ _

theorem rot_of_mem_alignPass (dt : ℝ) (l : List Boid) (b : Boid)
    (hb : b ∈ alignPass dt l) : 0 ≤ b.rot ∧ b.rot < 360 := by
  rw [alignPass_eq_map] at hb
  simp only [List.mem_map] at hb
  obtain ⟨a, _, rfl⟩ := hb
  exact steering_nudge_mem_range _ _ _

/-- Claim C4: headings are in `[0, 360)` after flock construction and after
every call to `update`, and every write path keeps them normalized: every
`steering_nudge` result is in `[0, 360)`, the separation pass preserves the
property, and the cohesion and alignment passes establish it outright. -/
theorem headings_always_normalized :
    (∀ n : ℕ, ∀ b ∈ mkSystem n, 0 ≤ b.rot ∧ b.rot < 360) ∧
    (∀ fro tgt force : ℝ,
      0 ≤ steering_nudge fro tgt force ∧ steering_nudge fro tgt force < 360) ∧
    (∀ (dt : ℝ) (l : List Boid), (∀ b ∈ l, 0 ≤ b.rot ∧ b.rot < 360) →
      ∀ b ∈ sepPass dt l, 0 ≤ b.rot ∧ b.rot < 360) ∧
    (∀ (dt : ℝ) (l : List Boid), ∀ b ∈ cohPass dt l, 0 ≤ b.rot ∧ b.rot < 360) ∧
    (∀ (dt : ℝ) (l : List Boid), ∀ b ∈ alignPass dt l, 0 ≤ b.rot ∧ b.rot < 360) ∧
    (∀ (dt : ℝ) (l : List Boid), ∀ b ∈ update dt l, 0 ≤ b.rot ∧ b.rot < 360) := by
  refine ⟨?_, ?_, ?_, ?_, ?_, ?_⟩
  · intro n b hb
    simp only [mkSystem, List.mem_map, List.mem_range] at hb
    obtain ⟨i, _, rfl⟩ := hb
    norm_num
  · exact steering_nudge_mem_range
  · intro dt l hl b hb
    rw [sepPass_eq_map] at hb
    simp only [List.mem_map] at hb
    obtain ⟨a, ha, rfl⟩ := hb
    rw [sepStep_def]
    split
    · exact hl a ha
    · exact steering_nudge_mem_range _ _ _
  · intro dt l b hb
    exact rot_of_mem_cohPass dt l b hb
  · intro dt l b hb
    exact rot_of_mem_alignPass dt l b hb
  · intro dt l b hb
    unfold update at hb
    rw [movePass_eq_map] at hb
    simp only [List.mem_map] at hb
    obtain ⟨a, ha, rfl⟩ := hb
    exact rot_of_mem_alignPass _ _ a ha

/-- Witness for Claim C4: the one-boid constructed flock has its heading in
range. -/
theorem headings_always_normalized_witness :
    0 ≤ (Boid.mk (0, 200) 0 0).rot ∧ (Boid.mk (0, 200) 0 0).rot < 360 :=
  headings_always_normalized.1 1 (Boid.mk (0, 200) 0 0)
    (by simp [mkSystem, List.range_succ])

/-! ### Claim C6: separation with an empty sample set is a no-op -/

theorem collectAngles_eq_nil (x : Boid) :
    ∀ l : List Boid, (∀ y ∈ l, y.id ≠ x.id → ¬ distance x.pos y.pos < 20) →
      collectAngles x l = [] := by
  intro l
  induction l with
  | nil => intro _; rfl
  | cons y rest ih =>
    intro h
    rw [collectAngles]
    by_cases hid : y.id = x.id
    · rw [if_pos hid]
      exact ih fun z hz hne => h z (List.mem_cons_of_mem _ hz) hne
    · rw [if_neg hid, if_neg (h y (List.mem_cons_self _ _) hid)]
      exact ih fun z hz hne => h z (List.mem_cons_of_mem _ hz) hne

/-- Claim C6: the separation pass maps each agent through `sepStep` on the
pass-start snapshot, and an agent with no other agent strictly within 20
distance units is left entirely unchanged by its `sepStep` — the empty
sample set is an explicit no-op. -/
theorem separation_empty_sample_noop (dt : ℝ) (l : List Boid) :
    sepPass dt l = l.map (sepStep dt l) ∧
    ∀ x : Boid, (∀ y ∈ l, y.id ≠ x.id → ¬ distance x.pos y.pos < 20) →
      sepStep dt l x = x := by
  refine ⟨sepPass_eq_map dt l, ?_⟩
  intro x hx
  rw [sepStep_def, collectAngles_eq_nil x l hx]
  rfl

/-- Witness for Claim C6: a single agent has no neighbors, so its
separation step is the identity. -/
theorem separation_empty_sample_noop_witness :
    sepStep 1 [Boid.mk (0, 0) 45 0] (Boid.mk (0, 0) 45 0) = Boid.mk (0, 0) 45 0 :=
  (separation_empty_sample_noop 1 [Boid.mk (0, 0) 45 0]).2 (Boid.mk (0, 0) 45 0)
    (by simp)

/-! ### Claim C7: the movement pass -/

/-- Claim C7: `update` is the four passes in order, and the movement pass
advances every agent's position by exactly
`(cos(heading_rad), sin(heading_rad)) * 10 * delta_time` — the heading being
the post-alignment one, converted by `degrees_to_radians` — while leaving
every heading unchanged. -/
theorem movement_pass_advances_positions (dt : ℝ) (l : List Boid) :
    update dt l = movePass dt (alignPass dt (cohPass dt (sepPass dt l))) ∧
    ∀ m : List Boid,
      List.Forall₂ (fun b b' =>
        b'.pos = b.pos + (Real.cos (degrees_to_radians b.rot) * 10 * dt,
                          Real.sin (degrees_to_radians b.rot) * 10 * dt) ∧
        b'.rot = b.rot) m (movePass dt m) := by
  refine ⟨rfl, ?_⟩
  intro m
  rw [movePass_eq_map]
  induction m with
  | nil => exact List.Forall₂.nil
  | cons a t ih => exact List.Forall₂.cons ⟨rfl, rfl⟩ ih

/-! ### Claim C10: `update` with `delta_time = 0` -/

theorem steering_nudge_zero_budget (fro tgt : ℝ) :
    steering_nudge fro tgt 0 = normalize_angle fro := by
  rw [steering_nudge_eq_min, min_eq_right (abs_nonneg _)]
  split_ifs <;> simpa using normalize_angle_idem fro

theorem sepStep_zero (l : List Boid) (b : Boid) :
    sepStep 0 l b = b ∨ sepStep 0 l b = { b with rot := normalize_angle b.rot } := by
  rw [sepStep_def]
  split
  · exact Or.inl rfl
  · right
    rw [show (90 : ℝ) * 0 = 0 by norm_num, steering_nudge_zero_budget]

theorem cohStep_zero (c : ℝ × ℝ) (b : Boid) :
    cohStep 0 c b = { b with rot := normalize_angle b.rot } := by
  unfold cohStep
  rw [show (60 : ℝ) * 0 = 0 by norm_num, steering_nudge_zero_budget]

theorem alignStep_zero (avg : ℝ) (b : Boid) :
    alignStep 0 avg b = { b with rot := normalize_angle b.rot } := by
  unfold alignStep
  rw [show (50 : ℝ) * 0 = 0 by norm_num, steering_nudge_zero_budget]

theorem moveStep_zero (b : Boid) : moveStep 0 b = b := by
  unfold moveStep
  rw [mul_zero, mul_zero, show ((0 : ℝ), (0 : ℝ)) = (0 : ℝ × ℝ) from rfl, add_zero]

/-- Claim C10: `update` with `delta_time = 0` leaves every position exactly
unchanged and replaces every heading by its normalization (all steering
budgets are 0 and the movement displacement is the zero vector); if all
headings are already in `[0, 360)`, `update 0` is the identity. -/
theorem update_zero_dt_normalizes (l : List Boid) :
    update 0 l = l.map (fun b => { b with rot := normalize_angle b.rot }) ∧
    ((∀ b ∈ l, 0 ≤ b.rot ∧ b.rot < 360) → update 0 l = l) := by
  have hmap : update 0 l = l.map (fun b => { b with rot := normalize_angle b.rot }) := by
    unfold update
    rw [sepPass_eq_map, cohPass_eq_map, alignPass_eq_map, movePass_eq_map,
      List.map_map, List.map_map, List.map_map]
    apply List.map_congr_left
    intro b _
    simp only [Function.comp]
    rcases sepStep_zero l b with h | h <;>
      rw [h, cohStep_zero, alignStep_zero, moveStep_zero] <;>
      simp [normalize_angle_idem]
  refine ⟨hmap, fun h => ?_⟩
  rw [hmap]
  have hid : ∀ b ∈ l, { b with rot := normalize_angle b.rot } = b := by
    intro b hb
    rw [normalize_angle_eq_self (h b hb).1 (h b hb).2]
  rw [List.map_congr_left hid]
  simp

/-- Witness for Claim C10 at a concrete one-agent flock with an in-range
heading. -/
theorem update_zero_dt_normalizes_witness :
    update 0 [Boid.mk (3, 4) 10 0] = [Boid.mk (3, 4) 10 0] :=
  (update_zero_dt_normalizes [Boid.mk (3, 4) 10 0]).2
    (by intro b hb; simp at hb; rw [hb]; norm_num)

/-! ### Claim C9: the single-agent flock -/

theorem angle_to_self (p : ℝ × ℝ) : angle_to p p = 0 := by
  unfold angle_to
  rw [sub_self, sub_self, show Complex.mk 0 0 = 0 by apply Complex.ext <;> simp,
    Complex.arg_zero]
  simp

theorem steering_nudge_self (fro m : ℝ) (hm : 0 ≤ m) :
    steering_nudge fro fro m = normalize_angle fro := by
  rw [steering_nudge_eq_min, sub_self,
    show wrapDiff 0 = 0 by unfold wrapDiff; norm_num, abs_zero, min_eq_left hm]
  split_ifs <;> simpa using normalize_angle_idem fro

theorem steering_nudge_zero_zero (m : ℝ) (hm : 0 ≤ m) :
    steering_nudge 0 0 m = 0 := by
  rw [steering_nudge_self 0 m hm]
  exact normalize_angle_eq_self le_rfl (by norm_num)

theorem collectAngles_self_singleton (b : Boid) : collectAngles b [b] = [] := by
  rw [collectAngles, if_pos rfl]
  rfl

theorem sepPass_singleton (dt : ℝ) (b : Boid) : sepPass dt [b] = [b] := by
  rw [sepPass_eq_map, List.map_cons, List.map_nil, sepStep_def,
    collectAngles_self_singleton]
  rfl

theorem centroid_singleton (b : Boid) : centroid [b] = b.pos := by
  unfold centroid
  simp

theorem avgRot_singleton (b : Boid) : avgRot [b] = b.rot := by
  unfold avgRot
  simp

/-- Claim C9: the single-agent flock has a totally defined, explicit
trajectory: after any number of ticks of `1/60` seconds — the 1000 of the
claim included — the flock is exactly one boid at `(k/6, 200)` with heading
0; every mean in `update` divides by the flock size 1, the separation mean
is skipped, and the self-bearing is the defined angle 0, so no undefined
value (the model of a NaN) ever appears. -/
theorem single_agent_trajectory (k : ℕ) :
    (update (1 / 60))^[k] (mkSystem 1) = [Boid.mk ((k : ℝ) / 6, 200) 0 0] := by
  induction k with
  | zero =>
    simp [mkSystem, show List.range 1 = [0] from rfl]
  | succ k ih =>
    rw [Function.iterate_succ_apply', ih]
    show update (1 / 60) [Boid.mk ((k : ℝ) / 6, 200) 0 0] = _
    unfold update
    rw [sepPass_singleton, cohPass_eq_map, List.map_cons, List.map_nil,
      centroid_singleton]
    unfold cohStep
    rw [angle_to_self, show (60 : ℝ) * (1 / 60) = 1 by norm_num,
      show (Boid.mk ((k : ℝ) / 6, 200) 0 0).rot = 0 from rfl,
      steering_nudge_zero_zero 1 (by norm_num)]
    rw [alignPass_eq_map, List.map_cons, List.map_nil, avgRot_singleton]
    unfold alignStep
    rw [show (Boid.mk ((k : ℝ) / 6, 200) 0 0).rot = 0 from rfl,
      steering_nudge_zero_zero (50 * (1 / 60)) (by norm_num)]
    rw [movePass_eq_map, List.map_cons, List.map_nil]
    unfold moveStep degrees_to_radians
    rw [show (Boid.mk ((k : ℝ) / 6, 200) 0 0).rot = 0 from rfl]
    rw [zero_mul, Real.cos_zero, Real.sin_zero]
    simp only [List.cons.injEq, Boid.mk.injEq, Prod.mk_add_mk, Prod.mk.injEq, and_true]
    push_cast
    constructor <;> ring

/-! ### Claim C8: coincident flocks -/

theorem distance_self (p : ℝ × ℝ) : distance p p = 0 := by
  unfold distance
  rw [sub_self, sub_self, abs_zero]
  norm_num

theorem foldl_add_zeros : ∀ (l : List ℝ) (init : ℝ), (∀ a ∈ l, a = 0) →
    l.foldl (· + ·) init = init := by
  intro l
  induction l with
  | nil => intro init _; rfl
  | cons a t ih =>
    intro init h
    rw [List.foldl_cons, h a (List.mem_cons_self _ _), add_zero]
    exact ih init fun b hb => h b (List.mem_cons_of_mem _ hb)

theorem foldl_add_replicate : ∀ (n : ℕ) (c init : ℝ),
    (List.replicate n c).foldl (· + ·) init = init + n * c := by
  intro n
  induction n with
  | zero => intro c init; simp
  | succ n ih =>
    intro c init
    rw [List.replicate_succ, List.foldl_cons, ih]
    push_cast
    ring

theorem collectAngles_all_zero (x : Boid) (p : ℝ × ℝ) (hx : x.pos = p) :
    ∀ l : List Boid, (∀ y ∈ l, y.pos = p) → ∀ a ∈ collectAngles x l, a = 0 := by
  intro l
  induction l with
  | nil => intro _ a ha; simp [collectAngles] at ha
  | cons y rest ih =>
    intro hl a ha
    have hrest : ∀ z ∈ rest, z.pos = p := fun z hz => hl z (List.mem_cons_of_mem _ hz)
    rw [collectAngles] at ha
    split_ifs at ha with h1 h2
    · exact ih hrest a ha
    · rcases List.mem_cons.mp ha with rfl | ha'
      · rw [hx, hl y (List.mem_cons_self _ _)]
        exact angle_to_self p
      · exact ih hrest a ha'
    · exact ih hrest a ha

theorem collectAngles_ne_nil (x : Boid) (p : ℝ × ℝ) (hx : x.pos = p) :
    ∀ l : List Boid, (∀ y ∈ l, y.pos = p) → (∃ y ∈ l, y.id ≠ x.id) →
      collectAngles x l ≠ [] := by
  intro l
  induction l with
  | nil =>
    intro _ hex
    obtain ⟨y, hy, _⟩ := hex
    simp at hy
  | cons y rest ih =>
    intro hl hex
    have hrest : ∀ z ∈ rest, z.pos = p := fun z hz => hl z (List.mem_cons_of_mem _ hz)
    rw [collectAngles]
    by_cases h1 : y.id = x.id
    · rw [if_pos h1]
      apply ih hrest
      obtain ⟨z, hz, hzid⟩ := hex
      rcases List.mem_cons.mp hz with rfl | hz2
      · exact absurd h1 hzid
      · exact ⟨z, hz2, hzid⟩
    · rw [if_neg h1, if_pos (by
        rw [hx, hl y (List.mem_cons_self _ _), distance_self]
        norm_num)]
      simp

theorem exists_mem_ne_id (l : List Boid) (hnd : (l.map Boid.id).Nodup)
    (hlen : 2 ≤ l.length) (x : Boid) (hx : x ∈ l) : ∃ y ∈ l, y.id ≠ x.id := by
  cases l with
  | nil => simp at hlen
  | cons a t =>
    cases t with
    | nil => simp at hlen
    | cons b t2 =>
      by_cases hab : a.id = x.id
      · refine ⟨b, by simp, ?_⟩
        simp only [List.map_cons, List.nodup_cons] at hnd
        have hanb : a.id ≠ b.id := by
          intro he
          exact hnd.1 (by rw [he]; simp)
        intro he2
        exact hanb (hab.trans he2.symm)
      · exact ⟨a, List.mem_cons_self _ _, hab⟩

theorem sepStep_uniform (dt : ℝ) (l : List Boid) (p : ℝ × ℝ) (r : ℝ)
    (huni : ∀ b ∈ l, b.pos = p ∧ b.rot = r) (hnd : (l.map Boid.id).Nodup)
    (hlen : 2 ≤ l.length) (x : Boid) (hx : x ∈ l) :
    sepStep dt l x = { x with rot := steering_nudge r (opposite_angle 0) (90 * dt) } := by
  have hne : collectAngles x l ≠ [] :=
    collectAngles_ne_nil x p (huni x hx).1 l (fun y hy => (huni y hy).1)
      (exists_mem_ne_id l hnd hlen x hx)
  have hfalse : (collectAngles x l).isEmpty = false := by
    cases hcl : collectAngles x l with
    | nil => exact absurd hcl hne
    | cons a t => rfl
  rw [sepStep_def, if_neg (by rw [hfalse]; simp)]
  rw [foldl_add_zeros _ _ (collectAngles_all_zero x p (huni x hx).1 l
    (fun y hy => (huni y hy).1)), zero_div, (huni x hx).2]

theorem centroid_uniform (l : List Boid) (p : ℝ × ℝ)
    (hl : ∀ b ∈ l, b.pos = p) (hlen : 1 ≤ l.length) : centroid l = p := by
  have hn : (l.length : ℝ) ≠ 0 := Nat.cast_ne_zero.mpr (by omega)
  have hx : l.map (fun b => b.pos.1) = List.replicate l.length p.1 := by
    rw [List.eq_replicate_iff]
    refine ⟨by simp, ?_⟩
    intro c hc
    simp only [List.mem_map] at hc
    obtain ⟨b, hb, rfl⟩ := hc
    rw [hl b hb]
  have hy : l.map (fun b => b.pos.2) = List.replicate l.length p.2 := by
    rw [List.eq_replicate_iff]
    refine ⟨by simp, ?_⟩
    intro c hc
    simp only [List.mem_map] at hc
    obtain ⟨b, hb, rfl⟩ := hc
    rw [hl b hb]
  unfold centroid
  rw [hx, hy, foldl_add_replicate, foldl_add_replicate, zero_add, zero_add,
    mul_div_cancel_left₀ _ hn, mul_div_cancel_left₀ _ hn]

theorem avgRot_uniform (l : List Boid) (r : ℝ)
    (hl : ∀ b ∈ l, b.rot = r) (hlen : 1 ≤ l.length) : avgRot l = r := by
  have hn : (l.length : ℝ) ≠ 0 := Nat.cast_ne_zero.mpr (by omega)
  have hr : l.map (fun b => b.rot) = List.replicate l.length r := by
    rw [List.eq_replicate_iff]
    refine ⟨by simp, ?_⟩
    intro c hc
    simp only [List.mem_map] at hc
    obtain ⟨b, hb, rfl⟩ := hc
    exact hl b hb
  unfold avgRot
  rw [hr, foldl_add_replicate, zero_add, mul_div_cancel_left₀ _ hn]

/-- Claim C8 (amended): for a flock of N ≥ 2 agents sharing one position and
one heading (ids distinct, as construction guarantees), one `update` treats
every agent identically — every pass nudges all agents by the same amount
and the movement displaces them equally — so afterwards all agents still
share a single position and a single heading.  (The cohesion nudge is toward
the self-bearing 0, not a no-op in general; see the counterexample.) -/
theorem update_preserves_coincident_uniformity (dt : ℝ) (l : List Boid)
    (p : ℝ × ℝ) (r : ℝ) (hlen : 2 ≤ l.length)
    (huni : ∀ b ∈ l, b.pos = p ∧ b.rot = r) (hids : (l.map Boid.id).Nodup) :
    ∃ q s, ∀ b ∈ update dt l, b.pos = q ∧ b.rot = s := by
  set R1 := steering_nudge r (opposite_angle 0) (90 * dt) with hR1
  set R2 := steering_nudge R1 0 (60 * dt) with hR2
  set R3 := steering_nudge R2 R2 (50 * dt) with hR3
  have hsep : ∀ b ∈ sepPass dt l, b.pos = p ∧ b.rot = R1 := by
    intro b hb
    rw [sepPass_eq_map] at hb
    simp only [List.mem_map] at hb
    obtain ⟨x, hx, rfl⟩ := hb
    rw [sepStep_uniform dt l p r huni hids hlen x hx]
    exact ⟨(huni x hx).1, rfl⟩
  have hlen1 : (sepPass dt l).length = l.length := by
    rw [sepPass_eq_map, List.length_map]
  have hcent : centroid (sepPass dt l) = p :=
    centroid_uniform _ p (fun b hb => (hsep b hb).1) (by omega)
  have hcoh : ∀ b ∈ cohPass dt (sepPass dt l), b.pos = p ∧ b.rot = R2 := by
    intro b hb
    rw [cohPass_eq_map] at hb
    simp only [List.mem_map] at hb
    obtain ⟨x, hx, rfl⟩ := hb
    unfold cohStep
    rw [hcent, (hsep x hx).1, angle_to_self, (hsep x hx).2]
    exact ⟨rfl, rfl⟩
  have hlen2 : (cohPass dt (sepPass dt l)).length = l.length := by
    rw [cohPass_eq_map, List.length_map, hlen1]
  have havg : avgRot (cohPass dt (sepPass dt l)) = R2 :=
    avgRot_uniform _ _ (fun b hb => (hcoh b hb).2) (by omega)
  have halign : ∀ b ∈ alignPass dt (cohPass dt (sepPass dt l)),
      b.pos = p ∧ b.rot = R3 := by
    intro b hb
    rw [alignPass_eq_map] at hb
    simp only [List.mem_map] at hb
    obtain ⟨x, hx, rfl⟩ := hb
    unfold alignStep
    rw [havg, (hcoh x hx).2]
    exact ⟨(hcoh x hx).1, rfl⟩
  refine ⟨p + (Real.cos (degrees_to_radians R3) * 10 * dt,
      Real.sin (degrees_to_radians R3) * 10 * dt), R3, ?_⟩
  intro b hb
  unfold update at hb
  rw [movePass_eq_map] at hb
  simp only [List.mem_map] at hb
  obtain ⟨x, hx, rfl⟩ := hb
  unfold moveStep
  rw [(halign x hx).1, (halign x hx).2]
  exact ⟨rfl, rfl⟩

theorem opposite_angle_zero : opposite_angle 0 = 180 := by
  unfold opposite_angle
  rw [normalize_angle_eq_self le_rfl (by norm_num), zero_add]
  exact normalize_angle_eq_self (by norm_num) (by norm_num)

theorem steering_nudge_90_180_90 : steering_nudge 90 180 90 = 180 := by
  have h90 : normalize_angle (90 : ℝ) = 90 :=
    normalize_angle_eq_self (by norm_num) (by norm_num)
  have h180 : normalize_angle (180 : ℝ) = 180 :=
    normalize_angle_eq_self (by norm_num) (by norm_num)
  rw [steering_nudge_eq_min, h90, h180,
    show wrapDiff (180 - 90 : ℝ) = 90 by unfold wrapDiff; norm_num,
    abs_of_nonneg (by norm_num : (0:ℝ) ≤ 90), min_self,
    if_pos (by norm_num : (0:ℝ) < 90),
    show (90:ℝ) + 90 = 180 by norm_num]
  exact h180

theorem steering_nudge_180_0_60 : steering_nudge 180 0 60 = 120 := by
  have h0 : normalize_angle (0 : ℝ) = 0 := normalize_angle_eq_self le_rfl (by norm_num)
  have h180 : normalize_angle (180 : ℝ) = 180 :=
    normalize_angle_eq_self (by norm_num) (by norm_num)
  rw [steering_nudge_eq_min, h180, h0,
    show wrapDiff (0 - 180 : ℝ) = -180 by unfold wrapDiff; norm_num,
    show |(-180 : ℝ)| = 180 by rw [abs_neg, abs_of_nonneg]; norm_num,
    show min (180 : ℝ) 60 = 60 from min_eq_right (by norm_num),
    if_neg (by norm_num : ¬ (0:ℝ) < -180),
    show (180:ℝ) + -60 = 120 by norm_num]
  exact normalize_angle_eq_self (by norm_num) (by norm_num)

/-- Counterexample to Claim C8 as stated: for the flock of two agents both
at `(0, 0)` with heading 90 and `delta_time = 1`, the cohesion pass inside
`update` is not a no-op — the post-separation headings (180) are not aligned
with the bearing to the centroid (`atan2(0,0) = 0`), so cohesion moves them
(to 120). -/
theorem cohesion_nudge_not_noop_counterexample :
    cohPass 1 (sepPass 1 [Boid.mk (0, 0) 90 0, Boid.mk (0, 0) 90 1]) ≠
      sepPass 1 [Boid.mk (0, 0) 90 0, Boid.mk (0, 0) 90 1] := by
  have hca0 : collectAngles (Boid.mk (0, 0) 90 0)
      [Boid.mk (0, 0) 90 0, Boid.mk (0, 0) 90 1] = [0] := by
    norm_num [collectAngles, distance_self, angle_to_self]
  have hca1 : collectAngles (Boid.mk (0, 0) 90 1)
      [Boid.mk (0, 0) 90 0, Boid.mk (0, 0) 90 1] = [0] := by
    norm_num [collectAngles, distance_self, angle_to_self]
  have hsep0 : sepStep 1 [Boid.mk (0, 0) 90 0, Boid.mk (0, 0) 90 1]
      (Boid.mk (0, 0) 90 0) = Boid.mk (0, 0) 180 0 := by
    rw [sepStep_def, hca0]
    norm_num [opposite_angle_zero]
    exact steering_nudge_90_180_90
  have hsep1 : sepStep 1 [Boid.mk (0, 0) 90 0, Boid.mk (0, 0) 90 1]
      (Boid.mk (0, 0) 90 1) = Boid.mk (0, 0) 180 1 := by
    rw [sepStep_def, hca1]
    norm_num [opposite_angle_zero]
    exact steering_nudge_90_180_90
  have hsep : sepPass 1 [Boid.mk (0, 0) 90 0, Boid.mk (0, 0) 90 1] =
      [Boid.mk (0, 0) 180 0, Boid.mk (0, 0) 180 1] := by
    rw [sepPass_eq_map, List.map_cons, List.map_cons, List.map_nil, hsep0, hsep1]
  have hcent : centroid [Boid.mk ((0:ℝ), (0:ℝ)) 180 0, Boid.mk (0, 0) 180 1] = (0, 0) := by
    norm_num [centroid]
  have hcoh : cohPass 1 [Boid.mk ((0:ℝ), (0:ℝ)) 180 0, Boid.mk (0, 0) 180 1] =
      [Boid.mk (0, 0) 120 0, Boid.mk (0, 0) 120 1] := by
    rw [cohPass_eq_map, hcent, List.map_cons, List.map_cons, List.map_nil]
    unfold cohStep
    dsimp only
    rw [show (60:ℝ) * 1 = 60 by norm_num, angle_to_self, steering_nudge_180_0_60]
  intro he
  rw [hsep, hcoh] at he
  simp only [List.cons.injEq, Boid.mk.injEq] at he
  norm_num at he

/-- Witness for the amended Claim C8: two agents at `(0,0)`, both with
heading 90 and distinct ids, stay coincident through one `update`. -/
theorem update_preserves_coincident_uniformity_witness :
    ∃ q s, ∀ b ∈ update 1 [Boid.mk (0, 0) 90 0, Boid.mk (0, 0) 90 1],
      b.pos = q ∧ b.rot = s :=
  update_preserves_coincident_uniformity 1
    [Boid.mk (0, 0) 90 0, Boid.mk (0, 0) 90 1] (0, 0) 90
    (by norm_num)
    (by
      intro b hb
      simp only [List.mem_cons, List.not_mem_nil, or_false] at hb
      rcases hb with rfl | rfl <;> exact ⟨rfl, rfl⟩)
    (by simp)

end

end Boids
